import Mathlib

/-!
Verification of the tree-to-layout engine of `src/app.py` (XMind viewer).

The embedded code is `generate_sheet_image` and its inner helper
`traverse_graph`: the graph builder (pre-order traversal of a topic tree),
the hierarchical layout heuristic, the deterministic fallback layout, and
the style formulas.  Machine floats of the source are modelled as rationals;
Python dicts are modelled as association lists (for the position map) or as
functions to `Option` (for the `level_nodes` dict of the layout loop).
-/

set_option maxHeartbeats 1000000

namespace XmindApp

/-- The value sitting under the `title` key of a topic dictionary: the key can
be absent, present with Python `None`, or present with a string. -/
inductive TitleVal : Type where
  | absent : TitleVal
  | pynone : TitleVal
  | str : String → TitleVal
deriving DecidableEq, Repr

/-- A Python value that can end up as a node's `title` attribute:
`none` models Python `None`, `some s` a string. -/
abbrev Label := Option String

/-- `topic.get('title', 'Untitled')` — the default applies only when the key
is absent; a present `None` value is returned as is. -/
def pyGetTitle : TitleVal → Label
  | .absent => some "Untitled"
  | .pynone => none
  | .str s => some s

mutual
/-- A topic dictionary: its `title` entry and its `topics` entry. -/
inductive Topic : Type where
  | mk : TitleVal → ChildrenVal → Topic

/-- The value under the `topics` key: absent, a list of topics, a dict from
direction labels to lists of topics (in insertion order), or any other shape
(neither list nor dict). -/
inductive ChildrenVal : Type where
  | absent : ChildrenVal
  | plist : List Topic → ChildrenVal
  | pdict : List (String × List Topic) → ChildrenVal
  | other : ChildrenVal
end

/-- One node of the networkx digraph: identity plus the `title` and `level`
attributes passed to `G.add_node`. -/
structure NodeRec : Type where
  nid : Nat
  title : Label
  level : Nat
deriving DecidableEq, Repr

/-- The state grown by `traverse_graph`: the digraph `G`, with node records in
insertion order and edges in insertion order.  The `node_labels` dict of the
source is the `nid`/`title` projection of `nodes`. -/
structure GraphState : Type where
  nodes : List NodeRec
  edges : List (Nat × Nat)
deriving DecidableEq, Repr

mutual
/-- `traverse_graph(topic, parent, node_id, level)` of `generate_sheet_image`:
adds the current node (ids produced by the traversal are always fresh, so
`G.add_node` appends a new record), the edge from its parent, then recurses
into the `topics` value, list children in list order and dict children bucket
by bucket in key order. -/
def traverseGraph (topic : Topic) (parent : Option Nat) (nodeId : Nat) (level : Nat)
    (st : GraphState) : Nat × GraphState :=
  match topic with
  | .mk title children =>
    let currentId := nodeId
    let st1 : GraphState :=
      { st with nodes := st.nodes ++ [⟨currentId, pyGetTitle title, level⟩] }
    let st2 : GraphState :=
      match parent with
      | some p => { st1 with edges := st1.edges ++ [(p, currentId)] }
      | none => st1
    let nextId := currentId + 1
    match children with
    | .absent => (nextId, st2)
    | .plist ts => traverseList ts currentId nextId (level + 1) st2
    | .pdict bs => traverseBuckets bs currentId nextId (level + 1) st2
    | .other => (nextId, st2)

/-- The `for subtopic in topic['topics']` loop (list case). -/
def traverseList (ts : List Topic) (parent : Nat) (nodeId : Nat) (level : Nat)
    (st : GraphState) : Nat × GraphState :=
  match ts with
  | [] => (nodeId, st)
  | t :: rest =>
    let r := traverseGraph t (some parent) nodeId level st
    traverseList rest parent r.1 level r.2

/-- The `for direction, subtopics in topic['topics'].items()` loop (dict case). -/
def traverseBuckets (bs : List (String × List Topic)) (parent : Nat) (nodeId : Nat)
    (level : Nat) (st : GraphState) : Nat × GraphState :=
  match bs with
  | [] => (nodeId, st)
  | (_, ts) :: rest =>
    let r := traverseList ts parent nodeId level st
    traverseBuckets rest parent r.1 level r.2
end

/-- The guarded call site `if 'topic' in sheet_data: traverse_graph(sheet_data['topic'])`:
a sheet either carries a root topic under its `topic` key or not. -/
abbrev SheetData := Option Topic

/-- Building the digraph for one sheet (graph `G` starts empty). -/
def build (sheet : SheetData) : GraphState :=
  match sheet with
  | some t => (traverseGraph t none 0 0 ⟨[], []⟩).2
  | none => ⟨[], []⟩

/-! ## The hierarchical layout engine -/

/-- A 2-D coordinate; the source's machine floats are modelled as rationals
(every constant of the heuristic is a decimal literal, exact in `ℚ`). -/
abbrev Point := ℚ × ℚ

/-- `list(G.successors(node))`: edge targets with the given source, in edge
insertion order (networkx keeps adjacency in insertion order). -/
def successors (g : GraphState) (n : Nat) : List Nat :=
  (g.edges.filter (fun e => e.1 == n)).map (fun e => e.2)

/-- `G.in_degree()[n]`: number of edges entering `n`. -/
def inDegree (g : GraphState) (n : Nat) : Nat :=
  (g.edges.filter (fun e => e.2 == n)).length

/-- `[n for n, d in G.in_degree() if d == 0]`, in node insertion order. -/
def rootNodes (g : GraphState) : List Nat :=
  (g.nodes.map (fun nd => nd.nid)).filter (fun n => inDegree g n == 0)

/-- `max(levels.values())` where `levels = {n: d['level'] for ...}`.  The source
only evaluates it when a root exists (hence the node list is non-empty); on a
non-empty list of naturals the fold below coincides with Python's `max`. -/
def maxLevelVal (g : GraphState) : Nat :=
  (g.nodes.map (fun nd => nd.level)).foldl max 0

/-- `pos.get` on the position dict. -/
def lookupPos (pos : List (Nat × Point)) (k : Nat) : Option Point :=
  (pos.find? (fun e => e.1 == k)).map (fun e => e.2)

/-- `pos[k] = v` on the position dict: replace in place when the key exists
(dict insertion order is preserved), append otherwise. -/
def setPos (pos : List (Nat × Point)) (k : Nat) (v : Point) : List (Nat × Point) :=
  if pos.any (fun e => e.1 == k) then
    pos.map (fun e => if e.1 == k then (k, v) else e)
  else pos ++ [(k, v)]

/-- State threaded through the placement loops: the `pos` dict and the
`level_nodes` dict (an int-keyed Python dict, modelled as a function). -/
structure LayoutState : Type where
  pos : List (Nat × Point)
  ln : Nat → Option (List Nat)

/-- `level_nodes[k] = v`. -/
def updateLn (ln : Nat → Option (List Nat)) (k : Nat) (v : List Nat) :
    Nat → Option (List Nat) :=
  fun j => if j = k then some v else ln j

/-- Body of `for node in level_nodes[level]` in `generate_sheet_image`:
collect the node's successors; when there are any, register them under
`level_nodes[level + 1]` and place each child relative to the parent's
position.  The guard `if level not in level_nodes: level_nodes[level] = []`
of the source is dead on this path (the loop is iterating `level_nodes[level]`)
and is reproduced as is.  The `none` branch of the position lookup mirrors the
`KeyError` Python would raise on an unplaced parent; this point is unreachable
on builder-produced graphs, the only inputs the theorems below quantify over. -/
def processNode (g : GraphState) (level : Nat) (st : LayoutState) (node : Nat) :
    LayoutState :=
  let children := successors g node
  let childCount := children.length
  if 0 < childCount then
    let ln1 := if (st.ln level).isNone then updateLn st.ln level [] else st.ln
    let ln2 := updateLn ln1 (level + 1) ((ln1 (level + 1)).getD [] ++ children)
    match lookupPos st.pos node with
    | none => { pos := st.pos, ln := ln2 }
    | some (px, py) =>
      if childCount == 1 then
        match children with
        | c :: _ => { pos := setPos st.pos c (px - 3, py), ln := ln2 }
        | [] => { pos := st.pos, ln := ln2 }
      else
        let spacing : ℚ := min 8 ((childCount : ℚ) * 1.5)
        let startY : ℚ := py - spacing / 2
        { pos := children.enum.foldl (fun p ic =>
            setPos p ic.2 (px - 3,
              if 1 < childCount then startY + spacing / ((childCount : ℚ) - 1) * ic.1
              else startY)) st.pos,
          ln := ln2 }
  else st

/-- One iteration of `for level in range(max(levels.values()) + 1)`:
skip the level when `level not in level_nodes`, otherwise process each node
recorded there.  Only `level_nodes[level + 1]` is written while the list at
`level` is being iterated, so taking the list once up front is faithful. -/
def processLevel (g : GraphState) (st : LayoutState) (level : Nat) : LayoutState :=
  match st.ln level with
  | none => st
  | some nodesAtLevel => nodesAtLevel.foldl (processNode g level) st

/-- The primary top-down heuristic of `generate_sheet_image`: seed the first
zero-indegree node at the origin, then sweep the levels. -/
def primaryLayout (g : GraphState) : List (Nat × Point) :=
  match rootNodes g with
  | [] => []
  | root :: _ =>
    let st0 : LayoutState :=
      { pos := [(root, (0, 0))], ln := fun k => if k = 0 then some [root] else none }
    ((List.range (maxLevelVal g + 1)).foldl (processLevel g) st0).pos

/-- Modelled from the spec: the fallback placement is the external library
routine `nx.spring_layout` (not part of this repository's source).  Per the
spec it is a deterministic force-directed placement — fixed seed, fixed
iteration count, fixed spread constant — that assigns a coordinate to every
node of the graph.  It is modelled as a fixed pseudo-random placement over the
graph's node list, one entry per node, a pure function of its arguments. -/
def spring_layout (g : GraphState) (seed : Nat) (k : ℚ) (iterations : Nat) :
    List (Nat × Point) :=
  g.nodes.map (fun nd =>
    (nd.nid,
      (k * (((nd.nid * 1103515245 + seed) % 2147483648 : Nat) : ℚ),
       k * (((nd.nid * 12345 + seed * iterations + 1) % 2147483648 : Nat) : ℚ))))

/-- The layout step of `generate_sheet_image`: the primary heuristic, replaced
wholesale by `nx.spring_layout(G, seed=42, k=0.3, iterations=100)` when it
produced no placement (`if not pos`). -/
def layout (g : GraphState) : List (Nat × Point) :=
  let pos := primaryLayout g
  if pos.isEmpty then spring_layout g 42 (3 / 10) 100 else pos

/-! ## Style resolver -/

/-- `2500 + len(label) * 50` (node size). -/
def node_size (label : String) : Nat := 2500 + label.length * 50

/-- `min(12, max(8, 120 / (len(label) + 1)))` (font size; float division). -/
def font_size (label : String) : ℚ :=
  min 12 (max 8 (120 / ((label.length : ℚ) + 1)))

/-- `colors[min(level, len(colors) - 1)]`: the fixed 6-colour palette. -/
def node_color (level : Nat) : String :=
  let colors := ["#FFD700", "#98FB98", "#87CEFA", "#DDA0DD", "#FFA07A", "#F0E68C"]
  colors.getD (min level (colors.length - 1)) ""

/-! ## `generate_sheet_image` control flow -/

/-- The PNG byte buffer (`io.BytesIO`), created empty before the `try` block. -/
structure Buffer : Type where
  data : List Nat
deriving DecidableEq, Repr

def Buffer.empty : Buffer := ⟨[]⟩

/-- Outcome of the drawing / `plt.savefig` calls of the `try` block: either
PNG bytes written into the buffer, or a raised exception with its message. -/
inductive RenderOutcome : Type where
  | ok : List Nat → RenderOutcome
  | fail : String → RenderOutcome
deriving DecidableEq, Repr

/-- Result of `generate_sheet_image`: the returned buffer, and whether
`plt.close('all')` ran (the `finally` clause). -/
structure GenResult : Type where
  buffer : Buffer
  figuresClosed : Bool
deriving DecidableEq, Repr

/-- The control flow of `generate_sheet_image`: the buffer is created before
the `try`; the `try` block builds the graph, computes the layout and styles
(total computations in this model) and hands them to the render adapter, which
either fills the buffer or raises; `except Exception` swallows the exception
(leaving the buffer as created); `finally` closes all figures; the buffer is
returned unconditionally.  The adapter is a parameter, so the theorem ranges
over every possible adapter behaviour. -/
def generate_sheet_image (sheet : SheetData)
    (render : GraphState → List (Nat × Point) → RenderOutcome) : GenResult :=
  let buffer := Buffer.empty
  let g := build sheet
  let pos := layout g
  let buffer :=
    match render g pos with
    | .ok png => ⟨png⟩
    | .fail _ => buffer
  { buffer := buffer, figuresClosed := true }

/-! ## Derived notions used to state and prove the properties -/

/-- The `title` entry of a topic dictionary. -/
def Topic.titleOf : Topic → TitleVal
  | .mk ttl _ => ttl

/-- The `topics` entry of a topic dictionary. -/
def Topic.childrenOf : Topic → ChildrenVal
  | .mk _ ch => ch

/-- Identity column of a list of node records. -/
def idsOf (l : List NodeRec) : List Nat := l.map (fun nd => nd.nid)

/-- The `level` attribute stored for identity `x` (first record wins). -/
def findLevel (l : List NodeRec) (x : Nat) : Option Nat :=
  (l.find? (fun nd => nd.nid == x)).map (fun nd => nd.level)

/-- The `level` attribute of node `x` in the graph. -/
def levelOf (g : GraphState) (x : Nat) : Option Nat := findLevel g.nodes x

/-- All node identities of the graph, in insertion order. -/
def nodeIds (g : GraphState) : List Nat := idsOf g.nodes

/-- Identities of the nodes recorded at exactly level `L`. -/
def levelIds (g : GraphState) (L : Nat) : List Nat :=
  idsOf (g.nodes.filter (fun nd => nd.level == L))

/-- Identities of the nodes recorded at level at most `L`. -/
def idsUpTo (g : GraphState) (L : Nat) : List Nat :=
  idsOf (g.nodes.filter (fun nd => nd.level ≤ L))

/-- What one recursive `traverse_graph` call contributes to the graph state:
the pre-order block of new node records (dense identities starting at the
node's own) and the new edges other than the edge from the node's parent.
Every new node except the block's root is entered by exactly one new edge, in
identity order; every new edge goes from a smaller to a larger identity inside
the block and from a recorded level to its successor level. -/
structure TravOut (nodeId level : Nat) (ttl : TitleVal)
    (newN : List NodeRec) (newE : List (Nat × Nat)) : Prop where
  ids : idsOf newN = List.range' nodeId newN.length
  hd : newN.head? = some ⟨nodeId, pyGetTitle ttl, level⟩
  dsts : newE.map (fun e => e.2) = List.range' (nodeId + 1) (newN.length - 1)
  bounds : ∀ e ∈ newE, nodeId ≤ e.1 ∧ e.1 < e.2 ∧ e.2 < nodeId + newN.length
  lvls : ∀ e ∈ newE, ∃ l, findLevel newN e.1 = some l ∧ findLevel newN e.2 = some (l + 1)

/-- What one child-list loop of `traverse_graph` contributes: as `TravOut`,
except that every new node is a target of exactly one new edge (the subtree
roots are entered from `parent`), and targets of parent edges sit at `level`. -/
structure TravListOut (parent nodeId level : Nat)
    (newN : List NodeRec) (newE : List (Nat × Nat)) : Prop where
  ids : idsOf newN = List.range' nodeId newN.length
  dsts : newE.map (fun e => e.2) = List.range' nodeId newN.length
  srcs : ∀ e ∈ newE,
    (e.1 = parent ∨ (nodeId ≤ e.1 ∧ e.1 < e.2)) ∧ nodeId ≤ e.2 ∧ e.2 < nodeId + newN.length
  lvls : ∀ e ∈ newE, (e.1 = parent ∧ findLevel newN e.2 = some level) ∨
      (∃ l, findLevel newN e.1 = some l ∧ findLevel newN e.2 = some (l + 1))

/-- Full characterisation of a `traverse_graph` call. -/
def TopicSpec (t : Topic) : Prop :=
  ∀ parent nodeId level st,
    ∃ newN newE,
      (traverseGraph t parent nodeId level st).2.nodes = st.nodes ++ newN ∧
      (traverseGraph t parent nodeId level st).2.edges =
        st.edges ++ (match parent with | some p => (p, nodeId) :: newE | none => newE) ∧
      (traverseGraph t parent nodeId level st).1 = nodeId + newN.length ∧
      TravOut nodeId level t.titleOf newN newE

/-- The shape every graph produced by `build` on a non-empty sheet has: dense
pre-order identities, one entering edge per non-root node in identity order,
edges from smaller to larger identities, levels increasing by one along every
edge, and the root recorded first with level 0. -/
structure TreeGraph (g : GraphState) : Prop where
  nodesIds : nodeIds g = List.range g.nodes.length
  edgeDsts : g.edges.map (fun e => e.2) = List.range' 1 (g.nodes.length - 1)
  edgeBounds : ∀ e ∈ g.edges, e.1 < e.2 ∧ e.2 < g.nodes.length
  edgeLevel : ∀ e ∈ g.edges, ∃ l, levelOf g e.1 = some l ∧ levelOf g e.2 = some (l + 1)
  rootFirst : g.nodes ≠ [] → ∃ tl, g.nodes.head? = some ⟨0, tl, 0⟩

/-- Keys of the position dict, in insertion order. -/
def posKeys (pos : List (Nat × Point)) : List Nat := pos.map (fun e => e.1)

/-- Invariant of the outer `for level in range(...)` loop of the primary
heuristic, holding before the iteration for level `L` runs: the position dict
holds exactly the identities recorded at level at most `L` (each exactly
once), `level_nodes[L]` holds exactly the identities recorded at level `L`
(each exactly once), and no key beyond `L` is set in `level_nodes` yet. -/
def LoopInv (g : GraphState) (L : Nat) (st : LayoutState) : Prop :=
  (posKeys st.pos).Nodup ∧
  (∀ m, m ∈ posKeys st.pos ↔ ∃ l, levelOf g m = some l ∧ l ≤ L) ∧
  (∀ m, m ∈ (st.ln L).getD [] ↔ levelOf g m = some L) ∧
  ((st.ln L).getD []).Nodup ∧
  (∀ K, L < K → st.ln K = none)

/-- Invariant of the inner `for node in level_nodes[level]` loop: `done` is
the already-processed prefix of the level-`L` work list.  The position dict
has additionally received the successors of every processed node, and
`level_nodes[L + 1]` lists exactly those successors in processing order. -/
def MidInv (g : GraphState) (L : Nat) (done : List Nat) (st : LayoutState) : Prop :=
  (posKeys st.pos).Nodup ∧
  (∀ m, m ∈ posKeys st.pos ↔
    (∃ l, levelOf g m = some l ∧ l ≤ L) ∨ ∃ n ∈ done, m ∈ successors g n) ∧
  ((st.ln (L + 1)).getD [] = (done.map (successors g)).flatten) ∧
  (∀ K, L + 1 < K → st.ln K = none)

/-! ## Concrete inputs used to instantiate the theorems -/

/-- A topic with three list children (Scenario D of the spec). -/
def topic3 : Topic :=
  .mk (.str "R") (.plist
    [.mk (.str "A") .absent, .mk (.str "B") .absent, .mk (.str "C") .absent])

/-- The layout state right after the root has been seeded at the origin. -/
def st3 : LayoutState :=
  { pos := [(0, ((0 : ℚ), (0 : ℚ)))], ln := fun k => if k = 0 then some [0] else none }

/-- A one-node graph whose node is the target of a self-loop, so no node has
indegree zero (the simulated-cycle shape of Scenario F). -/
def gLoop : GraphState := ⟨[⟨0, some "A", 0⟩], [(0, 0)]⟩

/-- A two-level chain topic. -/
def topicChain : Topic :=
  .mk (.str "R") (.plist [.mk (.str "A") (.plist [.mk (.str "B") .absent])])

/-! ## Basic lemmas about the derived notions -/

theorem idsOf_append (l₁ l₂ : List NodeRec) : idsOf (l₁ ++ l₂) = idsOf l₁ ++ idsOf l₂ := by
  simp [idsOf]

theorem idsOf_length (l : List NodeRec) : (idsOf l).length = l.length := by
  simp [idsOf]

theorem mem_idsOf {l : List NodeRec} {x : Nat} :
    x ∈ idsOf l ↔ ∃ nd ∈ l, nd.nid = x := by
  simp [idsOf, eq_comm]

theorem findLevel_cons_self {x lv : Nat} {tl : Label} {l : List NodeRec} :
    findLevel (⟨x, tl, lv⟩ :: l) x = some lv := by
  simp [findLevel]

theorem findLevel_cons_ne {nd : NodeRec} {x : Nat} {l : List NodeRec} (h : nd.nid ≠ x) :
    findLevel (nd :: l) x = findLevel l x := by
  simp [findLevel, List.find?_cons_of_neg, h]

theorem findLevel_mem {l : List NodeRec} {x v : Nat} (h : findLevel l x = some v) :
    x ∈ idsOf l := by
  unfold findLevel at h
  rcases hf : l.find? (fun nd => nd.nid == x) with _ | nd
  · rw [hf] at h; simp at h
  · have h1 := List.find?_some hf
    have h2 := List.mem_of_find?_eq_some hf
    simp only [beq_iff_eq] at h1
    exact mem_idsOf.2 ⟨nd, h2, h1⟩

theorem findLevel_append_left {l₁ : List NodeRec} {x v : Nat} (l₂ : List NodeRec)
    (h : findLevel l₁ x = some v) : findLevel (l₁ ++ l₂) x = some v := by
  unfold findLevel at *
  rcases hf : l₁.find? (fun nd => nd.nid == x) with _ | nd
  · rw [hf] at h; simp at h
  · rw [hf] at h
    simp [List.find?_append, hf, h]

theorem findLevel_append_right {l₁ : List NodeRec} {x : Nat} (l₂ : List NodeRec)
    (h : x ∉ idsOf l₁) : findLevel (l₁ ++ l₂) x = findLevel l₂ x := by
  have hnone : l₁.find? (fun nd => nd.nid == x) = none := by
    rw [List.find?_eq_none]
    intro nd hnd
    simp only [beq_iff_eq]
    intro hx
    exact h (mem_idsOf.2 ⟨nd, hnd, hx⟩)
  unfold findLevel
  simp [List.find?_append, hnone]

theorem not_mem_idsOf_of_ids {l : List NodeRec} {s : Nat} {x : Nat}
    (hids : idsOf l = List.range' s l.length) (hx : s + l.length ≤ x) :
    x ∉ idsOf l := by
  rw [hids]
  simp only [List.mem_range'_1, not_and, not_lt]
  omega

theorem mem_ids_bounds {l : List NodeRec} {s : Nat} {x : Nat}
    (hids : idsOf l = List.range' s l.length) (hx : x ∈ idsOf l) :
    s ≤ x ∧ x < s + l.length := by
  rw [hids] at hx
  simpa using hx

/-! ## Characterisation of the traversal -/

theorem traverseList_append (ts1 ts2 : List Topic) (parent level : Nat) :
    ∀ nodeId st, traverseList (ts1 ++ ts2) parent nodeId level st =
      traverseList ts2 parent (traverseList ts1 parent nodeId level st).1 level
        (traverseList ts1 parent nodeId level st).2 := by
  induction ts1 with
  | nil => intro nodeId st; simp [traverseList]
  | cons t rest ihr => intro nodeId st; simp [traverseList, ihr]

theorem traverseBuckets_eq (bs : List (String × List Topic)) (parent level : Nat) :
    ∀ nodeId st, traverseBuckets bs parent nodeId level st =
      traverseList ((bs.map (fun b => b.2)).flatten) parent nodeId level st := by
  induction bs with
  | nil => intro nodeId st; simp [traverseBuckets, traverseList]
  | cons b rest ihr =>
    intro nodeId st
    obtain ⟨s, ts⟩ := b
    simp [traverseBuckets, traverseList_append, ihr]

theorem sizeOf_mem_plist {ts : List Topic} {t' : Topic} (h : t' ∈ ts) (ttl : TitleVal) :
    sizeOf t' < sizeOf (Topic.mk ttl (.plist ts)) := by
  have h1 := List.sizeOf_lt_of_mem h
  simp only [Topic.mk.sizeOf_spec, ChildrenVal.plist.sizeOf_spec]
  omega

theorem sizeOf_mem_pdict {bs : List (String × List Topic)} {t' : Topic}
    (h : t' ∈ (bs.map (fun b => b.2)).flatten) (ttl : TitleVal) :
    sizeOf t' < sizeOf (Topic.mk ttl (.pdict bs)) := by
  obtain ⟨l, hl, ht⟩ := List.mem_flatten.1 h
  obtain ⟨b, hb, rfl⟩ := List.mem_map.1 hl
  have h1 := List.sizeOf_lt_of_mem ht
  have h2 : sizeOf b.2 < sizeOf b := by
    obtain ⟨x, y⟩ := b
    simp
  have h3 := List.sizeOf_lt_of_mem hb
  simp only [Topic.mk.sizeOf_spec, ChildrenVal.pdict.sizeOf_spec]
  omega

theorem traverseList_spec (ts : List Topic) (ihts : ∀ t ∈ ts, TopicSpec t) :
    ∀ parent nodeId level st,
      ∃ newN newE,
        (traverseList ts parent nodeId level st).2.nodes = st.nodes ++ newN ∧
        (traverseList ts parent nodeId level st).2.edges = st.edges ++ newE ∧
        (traverseList ts parent nodeId level st).1 = nodeId + newN.length ∧
        TravListOut parent nodeId level newN newE := by
  induction ts with
  | nil =>
    intro parent nodeId level st
    refine ⟨[], [], by simp [traverseList], by simp [traverseList], by simp [traverseList], ?_⟩
    constructor
    · simp [idsOf]
    · simp
    · intro e he; simp at he
    · intro e he; simp at he
  | cons t rest ihr =>
    intro parent nodeId level st
    obtain ⟨n1, e1, hn1, he1, hi1, out1⟩ := ihts t (by simp) (some parent) nodeId level st
    obtain ⟨n2, e2, hn2, he2, hi2, out2⟩ :=
      ihr (fun t' ht' => ihts t' (List.mem_cons_of_mem _ ht')) parent
        (traverseGraph t (some parent) nodeId level st).1 level
        (traverseGraph t (some parent) nodeId level st).2
    rw [hi1] at out2
    have hlen1 : 1 ≤ n1.length := by
      have h := out1.hd
      rcases n1 with _ | ⟨nd, tl1⟩
      · simp at h
      · simp
    have hfl0 : findLevel (n1 ++ n2) nodeId = some level := by
      have h := out1.hd
      rcases n1 with _ | ⟨nd, tl1⟩
      · simp at h
      · simp only [List.head?_cons, Option.some.injEq] at h
        subst h
        exact findLevel_cons_self
    have hgoal : traverseList (t :: rest) parent nodeId level st =
        traverseList rest parent (traverseGraph t (some parent) nodeId level st).1 level
          (traverseGraph t (some parent) nodeId level st).2 := by
      simp [traverseList]
    refine ⟨n1 ++ n2, (parent, nodeId) :: (e1 ++ e2), ?_, ?_, ?_, ?_⟩
    · rw [hgoal, hn2, hn1, List.append_assoc]
    · rw [hgoal, he2, he1]
      simp
    · rw [hgoal, hi2, hi1]
      simp only [List.length_append]
      omega
    · constructor
      · rw [idsOf_append, out1.ids, out2.ids, List.length_append,
          List.range'_append_1, Nat.add_comm]
      · simp only [List.map_cons, List.map_append]
        rw [out1.dsts, out2.dsts]
        have h1 : nodeId + n1.length = (nodeId + 1) + (n1.length - 1) := by omega
        rw [h1, List.range'_append_1, ← List.range'_succ]
        rw [List.length_append]
        congr 1
        omega
      · intro e he
        rcases List.mem_cons.1 he with rfl | he'
        · exact ⟨Or.inl rfl, Nat.le_refl _, by simp only [List.length_append]; omega⟩
        rcases List.mem_append.1 he' with h1 | h2
        · obtain ⟨hb1, hb2, hb3⟩ := out1.bounds e h1
          exact ⟨Or.inr ⟨hb1, hb2⟩, by omega, by simp only [List.length_append]; omega⟩
        · obtain ⟨hs, hb2, hb3⟩ := out2.srcs e h2
          refine ⟨?_, by omega, by simp only [List.length_append]; omega⟩
          rcases hs with h | ⟨h, h'⟩
          · exact Or.inl h
          · exact Or.inr ⟨by omega, h'⟩
      · intro e he
        rcases List.mem_cons.1 he with rfl | he'
        · exact Or.inl ⟨rfl, hfl0⟩
        rcases List.mem_append.1 he' with h1 | h2
        · obtain ⟨l, hl1, hl2⟩ := out1.lvls e h1
          exact Or.inr ⟨l, findLevel_append_left n2 hl1, findLevel_append_left n2 hl2⟩
        · rcases out2.lvls e h2 with ⟨hp, hl⟩ | ⟨l, hl1, hl2⟩
          · have hb := mem_ids_bounds out2.ids (findLevel_mem hl)
            refine Or.inl ⟨hp, ?_⟩
            rw [findLevel_append_right n2 (not_mem_idsOf_of_ids out1.ids (by omega))]
            exact hl
          · have hb1 := mem_ids_bounds out2.ids (findLevel_mem hl1)
            have hb2 := mem_ids_bounds out2.ids (findLevel_mem hl2)
            refine Or.inr ⟨l, ?_, ?_⟩
            · rw [findLevel_append_right n2 (not_mem_idsOf_of_ids out1.ids (by omega))]
              exact hl1
            · rw [findLevel_append_right n2 (not_mem_idsOf_of_ids out1.ids (by omega))]
              exact hl2

/-- Assembling a `TravOut` for a topic from the `TravListOut` of its child list. -/
theorem travOut_cons {nodeId level : Nat} {ttl : TitleVal}
    {n2 : List NodeRec} {e2 : List (Nat × Nat)}
    (out2 : TravListOut nodeId (nodeId + 1) (level + 1) n2 e2) :
    TravOut nodeId level ttl ((⟨nodeId, pyGetTitle ttl, level⟩ : NodeRec) :: n2) e2 := by
  constructor
  · simp only [idsOf, List.map_cons, List.length_cons]
    have h : idsOf n2 = List.range' (nodeId + 1) n2.length := out2.ids
    simp only [idsOf] at h
    rw [h]
    exact (List.range'_succ nodeId n2.length 1).symm
  · simp
  · simpa using out2.dsts
  · intro e he
    obtain ⟨hs, hb2, hb3⟩ := out2.srcs e he
    simp only [List.length_cons]
    rcases hs with h | ⟨h, h'⟩
    · omega
    · omega
  · intro e he
    rcases out2.lvls e he with ⟨hp, hl⟩ | ⟨l, hl1, hl2⟩
    · have hb := mem_ids_bounds out2.ids (findLevel_mem hl)
      refine ⟨level, ?_, ?_⟩
      · rw [hp]
        exact findLevel_cons_self
      · rw [findLevel_cons_ne (by simp; omega)]
        exact hl
    · have hb1 := mem_ids_bounds out2.ids (findLevel_mem hl1)
      have hb2 := mem_ids_bounds out2.ids (findLevel_mem hl2)
      refine ⟨l, ?_, ?_⟩
      · rw [findLevel_cons_ne (by simp; omega)]
        exact hl1
      · rw [findLevel_cons_ne (by simp; omega)]
        exact hl2

theorem topicSpec_bounded : ∀ bound : Nat, ∀ t : Topic, sizeOf t < bound → TopicSpec t := by
  intro bound
  induction bound with
  | zero => intro t ht; exact absurd ht (Nat.not_lt_zero _)
  | succ bound ih =>
    intro t ht
    obtain ⟨ttl, ch⟩ := t
    cases ch with
    | absent =>
      intro parent nodeId level st
      refine ⟨[⟨nodeId, pyGetTitle ttl, level⟩], [], ?_, ?_, ?_, ?_⟩
      · cases parent <;> simp [traverseGraph]
      · cases parent <;> simp [traverseGraph]
      · cases parent <;> simp [traverseGraph]
      · constructor
        · simp [idsOf]
        · simp [Topic.titleOf]
        · simp
        · intro e he; simp at he
        · intro e he; simp at he
    | other =>
      intro parent nodeId level st
      refine ⟨[⟨nodeId, pyGetTitle ttl, level⟩], [], ?_, ?_, ?_, ?_⟩
      · cases parent <;> simp [traverseGraph]
      · cases parent <;> simp [traverseGraph]
      · cases parent <;> simp [traverseGraph]
      · constructor
        · simp [idsOf]
        · simp [Topic.titleOf]
        · simp
        · intro e he; simp at he
        · intro e he; simp at he
    | plist ts =>
      have ihts : ∀ t' ∈ ts, TopicSpec t' := fun t' ht' =>
        ih t' (by have := sizeOf_mem_plist ht' ttl; omega)
      intro parent nodeId level st
      cases parent with
      | none =>
        obtain ⟨n2, e2, hn2, he2, hi2, out2⟩ := traverseList_spec ts ihts nodeId (nodeId + 1)
          (level + 1) ⟨st.nodes ++ [⟨nodeId, pyGetTitle ttl, level⟩], st.edges⟩
        have heq : traverseGraph (Topic.mk ttl (.plist ts)) none nodeId level st =
            traverseList ts nodeId (nodeId + 1) (level + 1)
              ⟨st.nodes ++ [⟨nodeId, pyGetTitle ttl, level⟩], st.edges⟩ := by
          simp [traverseGraph]
        refine ⟨⟨nodeId, pyGetTitle ttl, level⟩ :: n2, e2, ?_, ?_, ?_, ?_⟩
        · rw [heq, hn2]; simp
        · rw [heq, he2]
        · rw [heq, hi2]; simp only [List.length_cons]; omega
        · exact travOut_cons out2
      | some p =>
        obtain ⟨n2, e2, hn2, he2, hi2, out2⟩ := traverseList_spec ts ihts nodeId (nodeId + 1)
          (level + 1) ⟨st.nodes ++ [⟨nodeId, pyGetTitle ttl, level⟩], st.edges ++ [(p, nodeId)]⟩
        have heq : traverseGraph (Topic.mk ttl (.plist ts)) (some p) nodeId level st =
            traverseList ts nodeId (nodeId + 1) (level + 1)
              ⟨st.nodes ++ [⟨nodeId, pyGetTitle ttl, level⟩], st.edges ++ [(p, nodeId)]⟩ := by
          simp [traverseGraph]
        refine ⟨⟨nodeId, pyGetTitle ttl, level⟩ :: n2, e2, ?_, ?_, ?_, ?_⟩
        · rw [heq, hn2]; simp
        · rw [heq, he2]; simp
        · rw [heq, hi2]; simp only [List.length_cons]; omega
        · exact travOut_cons out2
    | pdict bs =>
      have ihts : ∀ t' ∈ (bs.map (fun b => b.2)).flatten, TopicSpec t' := fun t' ht' =>
        ih t' (by have := sizeOf_mem_pdict ht' ttl; omega)
      intro parent nodeId level st
      cases parent with
      | none =>
        obtain ⟨n2, e2, hn2, he2, hi2, out2⟩ := traverseList_spec _ ihts nodeId (nodeId + 1)
          (level + 1) ⟨st.nodes ++ [⟨nodeId, pyGetTitle ttl, level⟩], st.edges⟩
        have heq : traverseGraph (Topic.mk ttl (.pdict bs)) none nodeId level st =
            traverseList ((bs.map (fun b => b.2)).flatten) nodeId (nodeId + 1) (level + 1)
              ⟨st.nodes ++ [⟨nodeId, pyGetTitle ttl, level⟩], st.edges⟩ := by
          simp [traverseGraph, traverseBuckets_eq]
        refine ⟨⟨nodeId, pyGetTitle ttl, level⟩ :: n2, e2, ?_, ?_, ?_, ?_⟩
        · rw [heq, hn2]; simp
        · rw [heq, he2]
        · rw [heq, hi2]; simp only [List.length_cons]; omega
        · exact travOut_cons out2
      | some p =>
        obtain ⟨n2, e2, hn2, he2, hi2, out2⟩ := traverseList_spec _ ihts nodeId (nodeId + 1)
          (level + 1) ⟨st.nodes ++ [⟨nodeId, pyGetTitle ttl, level⟩], st.edges ++ [(p, nodeId)]⟩
        have heq : traverseGraph (Topic.mk ttl (.pdict bs)) (some p) nodeId level st =
            traverseList ((bs.map (fun b => b.2)).flatten) nodeId (nodeId + 1) (level + 1)
              ⟨st.nodes ++ [⟨nodeId, pyGetTitle ttl, level⟩], st.edges ++ [(p, nodeId)]⟩ := by
          simp [traverseGraph, traverseBuckets_eq]
        refine ⟨⟨nodeId, pyGetTitle ttl, level⟩ :: n2, e2, ?_, ?_, ?_, ?_⟩
        · rw [heq, hn2]; simp
        · rw [heq, he2]; simp
        · rw [heq, hi2]; simp only [List.length_cons]; omega
        · exact travOut_cons out2

theorem topicSpec (t : Topic) : TopicSpec t :=
  topicSpec_bounded (sizeOf t + 1) t (Nat.lt_succ_self _)

/-! ## Every built graph is a tree graph -/

theorem build_some_eq (t : Topic) :
    ∃ newN newE, build (some t) = ⟨newN, newE⟩ ∧
      TravOut 0 0 t.titleOf newN newE := by
  obtain ⟨newN, newE, hn, he, _, out⟩ := topicSpec t none 0 0 ⟨[], []⟩
  refine ⟨newN, newE, ?_, out⟩
  have hb : build (some t) = (traverseGraph t none 0 0 ⟨[], []⟩).2 := rfl
  rw [hb]
  cases hg : (traverseGraph t none 0 0 ⟨[], []⟩).2 with
  | mk ns es =>
    simp only [hg] at hn he
    simp at hn he
    simp [hn, he]

theorem build_treeGraph (sheet : SheetData) : TreeGraph (build sheet) := by
  cases sheet with
  | none =>
    constructor
    · simp [build, nodeIds, idsOf]
    · simp [build]
    · intro e he; simp [build] at he
    · intro e he; simp [build] at he
    · intro h; simp [build] at h
  | some t =>
    obtain ⟨newN, newE, hbe, out⟩ := build_some_eq t
    rw [hbe]
    constructor
    · show idsOf newN = List.range newN.length
      rw [out.ids, List.range_eq_range']
    · simpa using out.dsts
    · intro e he
      have h := out.bounds e he
      refine ⟨h.2.1, ?_⟩
      show e.2 < newN.length
      omega
    · intro e he
      exact out.lvls e he
    · intro h
      have hd := out.hd
      exact ⟨pyGetTitle t.titleOf, hd⟩

/-! ## Consequences of the tree-graph shape -/

section TreeGraphFacts

variable {g : GraphState}

theorem TreeGraph.nodeIds_nodup (tg : TreeGraph g) : (nodeIds g).Nodup := by
  rw [tg.nodesIds]; exact List.nodup_range _

theorem TreeGraph.mem_nodeIds (tg : TreeGraph g) {n : Nat} :
    n ∈ nodeIds g ↔ n < g.nodes.length := by
  rw [tg.nodesIds, List.mem_range]

theorem levelOf_mem {x v : Nat} (h : levelOf g x = some v) : x ∈ nodeIds g :=
  findLevel_mem h

theorem levelOf_total {n : Nat} (h : n ∈ nodeIds g) : ∃ l, levelOf g n = some l := by
  obtain ⟨nd, hnd, rfl⟩ := mem_idsOf.1 h
  have : (g.nodes.find? (fun r => r.nid == nd.nid)).isSome := by
    rw [List.find?_isSome]
    exact ⟨nd, hnd, by simp⟩
  rcases hf : g.nodes.find? (fun r => r.nid == nd.nid) with _ | r
  · rw [hf] at this; simp at this
  · exact ⟨r.level, by simp [levelOf, findLevel, hf]⟩

theorem le_foldl_max (l : List Nat) : ∀ a : Nat,
    (∀ x ∈ l, x ≤ l.foldl max a) ∧ a ≤ l.foldl max a := by
  induction l with
  | nil => intro a; exact ⟨by simp, by simp⟩
  | cons b bs ih =>
    intro a
    constructor
    · intro x hx
      rcases List.mem_cons.1 hx with rfl | hx'
      · calc x ≤ max a x := Nat.le_max_right a x
          _ ≤ List.foldl max (max a x) bs := (ih (max a x)).2
          _ = List.foldl max a (x :: bs) := rfl
      · calc x ≤ List.foldl max (max a b) bs := (ih (max a b)).1 x hx'
          _ = List.foldl max a (b :: bs) := rfl
    · calc a ≤ max a b := Nat.le_max_left a b
        _ ≤ List.foldl max (max a b) bs := (ih (max a b)).2
        _ = List.foldl max a (b :: bs) := rfl

theorem levelOf_le_max {n l : Nat} (h : levelOf g n = some l) : l ≤ maxLevelVal g := by
  unfold levelOf findLevel at h
  rcases hf : g.nodes.find? (fun r => r.nid == n) with _ | r
  · rw [hf] at h; simp at h
  · rw [hf] at h
    simp only [Option.map_some'] at h
    have hr := List.mem_of_find?_eq_some hf
    have : r.level ∈ g.nodes.map (fun nd => nd.level) := List.mem_map_of_mem _ hr
    have hle := (le_foldl_max (g.nodes.map (fun nd => nd.level)) 0).1 _ this
    simp only [Option.some.injEq] at h
    show l ≤ (g.nodes.map (fun nd => nd.level)).foldl max 0
    omega

theorem TreeGraph.dsts_nodup (tg : TreeGraph g) :
    (g.edges.map (fun e => e.2)).Nodup := by
  rw [tg.edgeDsts]; exact List.nodup_range' _ _

theorem mem_successors {n c : Nat} : c ∈ successors g n ↔ (n, c) ∈ g.edges := by
  unfold successors
  constructor
  · intro h
    obtain ⟨e, he, rfl⟩ := List.mem_map.1 h
    have h1 := List.mem_filter.1 he
    have h2 : e.1 = n := by simpa using h1.2
    have : e = (n, e.2) := by rw [← h2]
    rw [← this]; exact h1.1
  · intro h
    exact List.mem_map.2 ⟨(n, c), List.mem_filter.2 ⟨h, by simp⟩, rfl⟩

theorem TreeGraph.successors_nodup (tg : TreeGraph g) (n : Nat) :
    (successors g n).Nodup := by
  have hsub : List.Sublist (successors g n) (g.edges.map (fun e => e.2)) :=
    List.Sublist.map _ (List.filter_sublist g.edges)
  exact hsub.nodup tg.dsts_nodup

theorem TreeGraph.successors_inj (tg : TreeGraph g) {n n' c : Nat}
    (h1 : c ∈ successors g n) (h2 : c ∈ successors g n') : n = n' := by
  have e1 := mem_successors.1 h1
  have e2 := mem_successors.1 h2
  have := List.inj_on_of_nodup_map tg.dsts_nodup e1 e2 rfl
  exact congrArg Prod.fst this

theorem TreeGraph.successor_level (tg : TreeGraph g) {n c l : Nat}
    (he : (n, c) ∈ g.edges) (hl : levelOf g n = some l) :
    levelOf g c = some (l + 1) := by
  obtain ⟨l', hl1, hl2⟩ := tg.edgeLevel (n, c) he
  simp only at hl1 hl2
  rw [hl] at hl1
  simp only [Option.some.injEq] at hl1
  rw [hl1]
  exact hl2

theorem TreeGraph.levelOf_root (tg : TreeGraph g) (h : g.nodes ≠ []) :
    levelOf g 0 = some 0 := by
  obtain ⟨tl, hhd⟩ := tg.rootFirst h
  rcases hn : g.nodes with _ | ⟨nd, rest⟩
  · exact absurd hn h
  · rw [hn] at hhd
    simp only [List.head?_cons, Option.some.injEq] at hhd
    rw [levelOf, hn, hhd]
    exact findLevel_cons_self

theorem TreeGraph.level_zero_unique (tg : TreeGraph g) {m : Nat}
    (h : levelOf g m = some 0) : m = 0 := by
  by_contra hm
  have hmem := levelOf_mem h
  have hlt := tg.mem_nodeIds.1 hmem
  have hdst : m ∈ g.edges.map (fun e => e.2) := by
    rw [tg.edgeDsts]
    simp only [List.mem_range'_1]
    omega
  obtain ⟨e, he, rfl⟩ := List.mem_map.1 hdst
  obtain ⟨l, _, hl2⟩ := tg.edgeLevel e he
  rw [h] at hl2
  simp at hl2

theorem TreeGraph.in_edge_of_level_succ (tg : TreeGraph g) {m L : Nat}
    (h : levelOf g m = some (L + 1)) :
    ∃ a, (a, m) ∈ g.edges ∧ levelOf g a = some L := by
  have hmem := levelOf_mem h
  have hlt := tg.mem_nodeIds.1 hmem
  have hm : m ≠ 0 := by
    intro hm
    rw [hm] at h
    have hne : g.nodes ≠ [] := by
      intro hnil
      rw [levelOf, findLevel, hnil] at h
      simp at h
    rw [tg.levelOf_root hne] at h
    simp at h
  have hdst : m ∈ g.edges.map (fun e => e.2) := by
    rw [tg.edgeDsts]
    simp only [List.mem_range'_1]
    omega
  obtain ⟨e, he, rfl⟩ := List.mem_map.1 hdst
  obtain ⟨l, hl1, hl2⟩ := tg.edgeLevel e he
  rw [h] at hl2
  simp only [Option.some.injEq] at hl2
  refine ⟨e.1, ?_, ?_⟩
  · simpa using he
  · have hlL : l = L := by omega
    rw [hl1, hlL]

theorem inDegree_eq_count {n : Nat} :
    inDegree g n = (g.edges.map (fun e => e.2)).count n := by
  unfold inDegree
  rw [List.count_eq_countP, List.countP_map, ← List.countP_eq_length_filter]
  rfl

theorem TreeGraph.rootNodes_of_nonempty (tg : TreeGraph g) (h : g.nodes ≠ []) :
    rootNodes g = [0] := by
  have hN : 1 ≤ g.nodes.length := List.length_pos.2 h
  have hids : (g.nodes.map (fun nd => nd.nid)) = List.range g.nodes.length := tg.nodesIds
  have hsplit : List.range g.nodes.length = 0 :: List.range' 1 (g.nodes.length - 1) := by
    rw [List.range_eq_range']
    have : g.nodes.length = (g.nodes.length - 1) + 1 := by omega
    rw [this, List.range'_succ]
    simp
  have hcount : ∀ m, inDegree g m = (List.range' 1 (g.nodes.length - 1)).count m := by
    intro m
    rw [inDegree_eq_count, tg.edgeDsts]
  unfold rootNodes
  rw [hids, hsplit]
  rw [List.filter_cons_of_pos]
  · have : List.filter (fun n => inDegree g n == 0) (List.range' 1 (g.nodes.length - 1)) = [] := by
      rw [List.filter_eq_nil_iff]
      intro a ha
      have h1 : (List.range' 1 (g.nodes.length - 1)).count a = 1 :=
        List.count_eq_one_of_mem (List.nodup_range' _ _) ha
      rw [hcount a, h1]
      simp
    rw [this]
  · have h0 : (List.range' 1 (g.nodes.length - 1)).count 0 = 0 := by
      rw [List.count_eq_zero]
      simp only [List.mem_range'_1]
      omega
    rw [hcount 0, h0]
    simp

theorem rootNodes_of_empty (h : g.nodes = []) : rootNodes g = [] := by
  unfold rootNodes
  rw [h]
  simp

end TreeGraphFacts

/-! ## The position dict -/

theorem posKeys_append (p1 p2 : List (Nat × Point)) :
    posKeys (p1 ++ p2) = posKeys p1 ++ posKeys p2 := by
  simp [posKeys]

theorem setPos_not_mem {pos : List (Nat × Point)} {k : Nat} {v : Point}
    (h : k ∉ posKeys pos) : setPos pos k v = pos ++ [(k, v)] := by
  have hany : pos.any (fun e => e.1 == k) = false := by
    rw [List.any_eq_false]
    intro e he hk
    exact h (List.mem_map.2 ⟨e, he, by simpa using hk⟩)
  unfold setPos
  rw [hany]
  simp

theorem lookupPos_eq_some_of_mem {pos : List (Nat × Point)} {k : Nat}
    (h : k ∈ posKeys pos) : ∃ v, lookupPos pos k = some v := by
  have hs : (pos.find? (fun e => e.1 == k)).isSome := by
    rw [List.find?_isSome]
    obtain ⟨e, he, hk⟩ := List.mem_map.1 h
    exact ⟨e, he, by simp [hk]⟩
  rcases hf : pos.find? (fun e => e.1 == k) with _ | e
  · rw [hf] at hs; simp at hs
  · exact ⟨e.2, by simp [lookupPos, hf]⟩

theorem lookupPos_setPos_self (pos : List (Nat × Point)) (k : Nat) (v : Point) :
    lookupPos (setPos pos k v) k = some v := by
  unfold setPos
  by_cases h : pos.any (fun e => e.1 == k) = true
  · rw [if_pos h]
    unfold lookupPos
    induction pos with
    | nil => simp at h
    | cons e rest ih =>
      by_cases he : (e.1 == k) = true
      · rw [List.map_cons, if_pos he]
        simp
      · have he' : (e.1 == k) = false := by simpa using he
        simp only [List.any_cons, he', Bool.false_or] at h
        rw [List.map_cons, if_neg he]
        simp only [List.find?_cons, he']
        exact ih h
  · rw [if_neg h]
    unfold lookupPos
    rw [List.find?_append]
    have hnone : pos.find? (fun e => e.1 == k) = none := by
      rw [List.find?_eq_none]
      intro e he
      simp only [List.any_eq_true, not_exists, not_and] at h
      intro hk
      exact absurd hk (by simpa using h e he)
    rw [hnone]
    simp

theorem lookupPos_setPos_ne {k' k : Nat} (pos : List (Nat × Point)) (v : Point)
    (h : k' ≠ k) : lookupPos (setPos pos k v) k' = lookupPos pos k' := by
  unfold setPos
  by_cases hany : pos.any (fun e => e.1 == k) = true
  · rw [if_pos hany]
    unfold lookupPos
    clear hany
    induction pos with
    | nil => simp
    | cons e rest ih =>
      by_cases he : (e.1 == k) = true
      · have he1 : e.1 = k := by simpa using he
        have hk' : (((k, v) : Nat × Point).1 == k') = false := by simp [Ne.symm h]
        have hek' : (e.1 == k') = false := by simp [he1, Ne.symm h]
        rw [List.map_cons, if_pos he]
        simp only [List.find?_cons, hk', hek']
        exact ih
      · rw [List.map_cons, if_neg he]
        by_cases he' : (e.1 == k') = true
        · simp only [List.find?_cons, he']
        · have he'' : (e.1 == k') = false := by simpa using he'
          simp only [List.find?_cons, he'']
          exact ih
  · rw [if_neg hany]
    unfold lookupPos
    rw [List.find?_append]
    have : ([(k, v)].find? (fun e => e.1 == k')) = none := by
      simp [Ne.symm h]
    rw [this]
    simp

theorem foldl_setPos_keys (f : Nat × Nat → Point) :
    ∀ (ps : List (Nat × Nat)) (pos : List (Nat × Point)),
      (∀ p ∈ ps, p.2 ∉ posKeys pos) → ((ps.map (fun p => p.2)).Nodup) →
      posKeys (ps.foldl (fun acc p => setPos acc p.2 (f p)) pos) =
        posKeys pos ++ ps.map (fun p => p.2) := by
  intro ps
  induction ps with
  | nil => intro pos _ _; simp
  | cons p rest ih =>
    intro pos hfresh hnodup
    simp only [List.foldl_cons]
    have h1 : setPos pos p.2 (f p) = pos ++ [(p.2, f p)] :=
      setPos_not_mem (hfresh p (by simp))
    rw [h1]
    simp only [List.map_cons] at hnodup
    have hn := List.nodup_cons.1 hnodup
    have h2 : ∀ q ∈ rest, q.2 ∉ posKeys (pos ++ [(p.2, f p)]) := by
      intro q hq
      rw [posKeys_append]
      simp only [List.mem_append, not_or]
      refine ⟨hfresh q (by simp [hq]), ?_⟩
      show q.2 ∉ posKeys [(p.2, f p)]
      simp only [posKeys, List.map_cons, List.map_nil, List.mem_singleton]
      intro hqp
      exact hn.1 (hqp ▸ List.mem_map.2 ⟨q, hq, rfl⟩)
    rw [ih (pos ++ [(p.2, f p)]) h2 hn.2, posKeys_append]
    simp [posKeys]

theorem foldl_setPos_preserve (f : Nat × Nat → Point) :
    ∀ (ps : List (Nat × Nat)) (pos : List (Nat × Point)) (k : Nat),
      k ∉ ps.map (fun p => p.2) →
      lookupPos (ps.foldl (fun acc q => setPos acc q.2 (f q)) pos) k = lookupPos pos k := by
  intro ps
  induction ps with
  | nil => intro pos k _; simp
  | cons q rest ih =>
    intro pos k hk
    simp only [List.foldl_cons]
    rw [ih _ k (by simp only [List.map_cons, List.mem_cons, not_or] at hk; exact hk.2)]
    exact lookupPos_setPos_ne pos (f q) (by simp only [List.map_cons, List.mem_cons, not_or] at hk; exact hk.1)

theorem foldl_setPos_lookup (f : Nat × Nat → Point) :
    ∀ (ps : List (Nat × Nat)) (pos : List (Nat × Point)),
      ((ps.map (fun p => p.2)).Nodup) →
      ∀ p ∈ ps, lookupPos (ps.foldl (fun acc q => setPos acc q.2 (f q)) pos) p.2 = some (f p) := by
  intro ps
  induction ps with
  | nil => intro pos _ p hp; simp at hp
  | cons q rest ih =>
    intro pos hnodup p hp
    simp only [List.map_cons] at hnodup
    have hn := List.nodup_cons.1 hnodup
    simp only [List.foldl_cons]
    rcases List.mem_cons.1 hp with rfl | hp'
    · rw [foldl_setPos_preserve f rest _ _ hn.1]
      exact lookupPos_setPos_self _ _ _
    · exact ih _ hn.2 p hp'

/-! ## Evaluating one `processNode` step -/

theorem processNode_of_no_children {g : GraphState} {L : Nat} {st : LayoutState} {next : Nat}
    (h : successors g next = []) : processNode g L st next = st := by
  simp [processNode, h]

theorem ln1_eval {st : LayoutState} {L : Nat} :
    ∀ J, J ≠ L →
      (if (st.ln L).isNone = true then updateLn st.ln L [] else st.ln) J = st.ln J := by
  intro J hJ
  split
  · simp [updateLn, hJ]
  · rfl

theorem processNode_ln {g : GraphState} {L : Nat} {st : LayoutState} {next : Nat}
    (h : successors g next ≠ []) (K : Nat) (hK : K ≠ L) :
    (processNode g L st next).ln K =
      if K = L + 1 then some ((st.ln (L + 1)).getD [] ++ successors g next)
      else st.ln K := by
  have hlen : 0 < (successors g next).length := List.length_pos.2 h
  have hL1 : (L : Nat) + 1 ≠ L := by omega
  simp only [processNode, if_pos hlen]
  split
  · simp only [updateLn]
    by_cases hK1 : K = L + 1 <;> simp [hK1, updateLn, ite_apply, hK, hL1]
  · split
    · split
      · simp only [updateLn]
        by_cases hK1 : K = L + 1 <;> simp [hK1, updateLn, ite_apply, hK, hL1]
      · simp only [updateLn]
        by_cases hK1 : K = L + 1 <;> simp [hK1, updateLn, ite_apply, hK, hL1]
    · simp only [updateLn]
      by_cases hK1 : K = L + 1 <;> simp [hK1, updateLn, ite_apply, hK, hL1]

theorem processNode_posKeys {g : GraphState} {L : Nat} {st : LayoutState} {next : Nat}
    (hsome : ∃ v, lookupPos st.pos next = some v)
    (hfresh : ∀ c ∈ successors g next, c ∉ posKeys st.pos)
    (hnodup : (successors g next).Nodup) :
    posKeys (processNode g L st next).pos = posKeys st.pos ++ successors g next := by
  by_cases h : successors g next = []
  · rw [processNode_of_no_children h, h]
    simp
  have hlen : 0 < (successors g next).length := List.length_pos.2 h
  obtain ⟨⟨px, py⟩, hup⟩ := hsome
  simp only [processNode, if_pos hlen, hup]
  split
  · -- single child
    next h1 =>
    rcases hch : successors g next with _ | ⟨c, rest⟩
    · exact absurd hch h
    have hrest : rest = [] := by
      have := h1
      rw [hch] at this
      simp at this
      exact this
    subst hrest
    simp only [hch]
    rw [setPos_not_mem (by have := hfresh c (by rw [hch]; simp); exact this)]
    rw [posKeys_append]
    rfl
  · -- spread children
    have hf := foldl_setPos_keys
      (fun ic => ((px - 3 : ℚ),
        if 1 < (successors g next).length then
          (py - min 8 (((successors g next).length : ℚ) * 1.5) / 2) +
            min 8 (((successors g next).length : ℚ) * 1.5) /
              (((successors g next).length : ℚ) - 1) * ic.1
        else (py - min 8 (((successors g next).length : ℚ) * 1.5) / 2)))
      (successors g next).enum st.pos
      (fun p hp => by
        obtain ⟨hlt, hp2⟩ := List.mem_enum hp
        rw [hp2]
        exact hfresh _ (List.getElem_mem hlt))
      (by rw [List.enum_map_snd]; exact hnodup)
    rw [List.enum_map_snd] at hf
    exact hf

/-! ## The layout loop invariant -/

theorem nodup_flatten_successors {g : GraphState} (tg : TreeGraph g) :
    ∀ lst : List Nat, lst.Nodup → ((lst.map (successors g)).flatten).Nodup := by
  intro lst
  induction lst with
  | nil => intro h; simp
  | cons n rest ih =>
    intro h
    have hn := List.nodup_cons.1 h
    simp only [List.map_cons, List.flatten_cons]
    rw [List.nodup_append]
    refine ⟨tg.successors_nodup n, ih hn.2, ?_⟩
    intro c hc hcr
    obtain ⟨l', hl', hcl'⟩ := List.mem_flatten.1 hcr
    obtain ⟨n', hn', rfl⟩ := List.mem_map.1 hl'
    exact hn.1 (by rw [tg.successors_inj hc hcl']; exact hn')

theorem processNode_midInv {g : GraphState} {L : Nat} {done : List Nat} {st : LayoutState}
    {next : Nat} (tg : TreeGraph g) (inv : MidInv g L done st)
    (hnext : levelOf g next = some L) (hnotdone : next ∉ done) :
    MidInv g L (done ++ [next]) (processNode g L st next) := by
  obtain ⟨hnodup, hmem, hln, hlnhigh⟩ := inv
  have hchild_level : ∀ c ∈ successors g next, levelOf g c = some (L + 1) := fun c hc =>
    tg.successor_level (mem_successors.1 hc) hnext
  have hfresh : ∀ c ∈ successors g next, c ∉ posKeys st.pos := by
    intro c hc hmemc
    rcases (hmem c).1 hmemc with ⟨l, hl, hle⟩ | ⟨n, hn, hcn⟩
    · rw [hchild_level c hc] at hl
      simp only [Option.some.injEq] at hl
      omega
    · exact hnotdone (by rw [tg.successors_inj hcn hc] at hn; exact hn)
  by_cases hempty : successors g next = []
  · rw [processNode_of_no_children hempty]
    refine ⟨hnodup, ?_, ?_, hlnhigh⟩
    · intro m
      rw [hmem m]
      constructor
      · rintro (h | ⟨n, hn, hmn⟩)
        · exact Or.inl h
        · exact Or.inr ⟨n, by simp [hn], hmn⟩
      · rintro (h | ⟨n, hn, hmn⟩)
        · exact Or.inl h
        · rcases List.mem_append.1 hn with hn' | hn'
          · exact Or.inr ⟨n, hn', hmn⟩
          · simp only [List.mem_singleton] at hn'
            subst hn'
            rw [hempty] at hmn
            simp at hmn
    · rw [hln]
      simp [hempty]
  · have hkeys := @processNode_posKeys g L st next
      (lookupPos_eq_some_of_mem ((hmem next).2 (Or.inl ⟨L, hnext, Nat.le_refl L⟩)))
      hfresh (tg.successors_nodup next)
    have hlnK := @processNode_ln g L st next hempty
    refine ⟨?_, ?_, ?_, ?_⟩
    · rw [hkeys, List.nodup_append]
      refine ⟨hnodup, tg.successors_nodup next, ?_⟩
      intro a ha hb
      exact hfresh a hb ha
    · intro m
      rw [hkeys, List.mem_append, hmem m]
      constructor
      · rintro ((h | ⟨n, hn, hmn⟩) | hsucc)
        · exact Or.inl h
        · exact Or.inr ⟨n, by simp [hn], hmn⟩
        · exact Or.inr ⟨next, by simp, hsucc⟩
      · rintro (h | ⟨n, hn, hmn⟩)
        · exact Or.inl (Or.inl h)
        · rcases List.mem_append.1 hn with hn' | hn'
          · exact Or.inl (Or.inr ⟨n, hn', hmn⟩)
          · simp only [List.mem_singleton] at hn'
            subst hn'
            exact Or.inr hmn
    · rw [hlnK (L + 1) (by omega), if_pos rfl]
      simp only [Option.getD_some]
      rw [hln]
      simp
    · intro K hK
      rw [hlnK K (by omega), if_neg (by omega)]
      exact hlnhigh K hK

theorem foldl_processNode_midInv {g : GraphState} (tg : TreeGraph g) (L : Nat) :
    ∀ (rest done : List Nat) (st : LayoutState),
      MidInv g L done st →
      (∀ m ∈ rest, levelOf g m = some L) →
      (done ++ rest).Nodup →
      MidInv g L (done ++ rest) (rest.foldl (processNode g L) st) := by
  intro rest
  induction rest with
  | nil => intro done st h _ _; simpa using h
  | cons next rest' ih =>
    intro done st hinv hlev hnodup
    have hnotdone : next ∉ done := by
      rw [List.nodup_append] at hnodup
      exact fun hd => hnodup.2.2 hd (by simp)
    have h1 := processNode_midInv tg hinv (hlev next (by simp)) hnotdone
    have h2 := ih (done ++ [next]) (processNode g L st next) h1
      (fun m hm => hlev m (by simp [hm]))
      (by simpa using hnodup)
    simpa using h2

theorem processLevel_loopInv {g : GraphState} (tg : TreeGraph g) {L : Nat} {st : LayoutState}
    (hinv : LoopInv g L st) : LoopInv g (L + 1) (processLevel g st L) := by
  obtain ⟨hpn, hpm, hlm, hln, hhigh⟩ := hinv
  rcases hsl : st.ln L with _ | lst
  · -- `level not in level_nodes`: the level is skipped, and no node records
    -- level `L`, hence none records `L + 1` either.
    rw [hsl] at hlm
    simp only [Option.getD_none, List.not_mem_nil, false_iff] at hlm
    have hnoL1 : ∀ m, levelOf g m ≠ some (L + 1) := by
      intro m hm
      obtain ⟨a, ha, hla⟩ := tg.in_edge_of_level_succ hm
      exact (hlm a) hla
    simp only [processLevel, hsl]
    refine ⟨hpn, ?_, ?_, ?_, ?_⟩
    · intro m
      rw [hpm m]
      constructor
      · rintro ⟨l, hl, hle⟩
        exact ⟨l, hl, by omega⟩
      · rintro ⟨l, hl, hle⟩
        refine ⟨l, hl, ?_⟩
        rcases Nat.lt_or_ge l (L + 1) with h | h
        · omega
        · have : l = L + 1 := by omega
          subst this
          exact absurd hl (hnoL1 m)
    · intro m
      rw [hhigh (L + 1) (by omega)]
      simp only [Option.getD_none, List.not_mem_nil, false_iff]
      exact hnoL1 m
    · rw [hhigh (L + 1) (by omega)]
      simp
    · intro K hK
      exact hhigh K (by omega)
  · rw [hsl] at hlm hln
    simp only [Option.getD_some] at hlm hln
    have hlst_mem : ∀ m ∈ lst, levelOf g m = some L := fun m hm => (hlm m).1 hm
    have hmid0 : MidInv g L [] st := by
      refine ⟨hpn, ?_, ?_, fun K hK => hhigh K (by omega)⟩
      · intro m
        rw [hpm m]
        simp
      · rw [hhigh (L + 1) (by omega)]
        simp
    have hmid := foldl_processNode_midInv tg L lst [] st hmid0 hlst_mem (by simpa using hln)
    simp only [List.nil_append] at hmid
    obtain ⟨hpn', hpm', hln', hhigh'⟩ := hmid
    have hred : processLevel g st L = lst.foldl (processNode g L) st := by
      simp only [processLevel, hsl]
    rw [hred]
    refine ⟨hpn', ?_, ?_, ?_, ?_⟩
    · intro m
      rw [hpm' m]
      constructor
      · rintro (⟨l, hl, hle⟩ | ⟨n, hn, hmn⟩)
        · exact ⟨l, hl, by omega⟩
        · exact ⟨L + 1, tg.successor_level (mem_successors.1 hmn) (hlst_mem n hn), Nat.le_refl _⟩
      · rintro ⟨l, hl, hle⟩
        by_cases hlL : l ≤ L
        · exact Or.inl ⟨l, hl, hlL⟩
        · have hl1 : l = L + 1 := by omega
          subst hl1
          obtain ⟨a, ha, hla⟩ := tg.in_edge_of_level_succ hl
          exact Or.inr ⟨a, (hlm a).2 hla, mem_successors.2 ha⟩
    · intro m
      rw [hln']
      constructor
      · intro hm
        obtain ⟨l', hl', hml'⟩ := List.mem_flatten.1 hm
        obtain ⟨n, hn, rfl⟩ := List.mem_map.1 hl'
        exact tg.successor_level (mem_successors.1 hml') (hlst_mem n hn)
      · intro hm
        obtain ⟨a, ha, hla⟩ := tg.in_edge_of_level_succ hm
        exact List.mem_flatten.2
          ⟨successors g a, List.mem_map.2 ⟨a, (hlm a).2 hla, rfl⟩, mem_successors.2 ha⟩
    · rw [hln']
      exact nodup_flatten_successors tg lst hln
    · intro K hK
      exact hhigh' K (by omega)

theorem foldl_processLevel {g : GraphState} (tg : TreeGraph g) :
    ∀ (n a : Nat) (st : LayoutState), LoopInv g a st →
      LoopInv g (a + n) ((List.range' a n).foldl (processLevel g) st) := by
  intro n
  induction n with
  | zero => intro a st h; simpa using h
  | succ n ih =>
    intro a st h
    rw [List.range'_succ]
    simp only [List.foldl_cons]
    have h1 := processLevel_loopInv tg h
    have h2 := ih (a + 1) _ h1
    have heq : a + 1 + n = a + (n + 1) := by omega
    rw [heq] at h2
    exact h2

theorem primaryLayout_keys {g : GraphState} (tg : TreeGraph g) (h : g.nodes ≠ []) :
    (posKeys (primaryLayout g)).Nodup ∧
      ∀ m, m ∈ posKeys (primaryLayout g) ↔ m ∈ nodeIds g := by
  have hroot := tg.rootNodes_of_nonempty h
  have hbase : LoopInv g 0
      ⟨[(0, ((0 : ℚ), (0 : ℚ)))], fun k => if k = 0 then some [0] else none⟩ := by
    have hl0 := tg.levelOf_root h
    refine ⟨by simp [posKeys], ?_, ?_, by simp, ?_⟩
    · intro m
      simp only [posKeys, List.map_cons, List.map_nil, List.mem_singleton]
      constructor
      · rintro rfl
        exact ⟨0, hl0, Nat.le_refl 0⟩
      · rintro ⟨l, hl, hle⟩
        have hle0 : l = 0 := by omega
        rw [hle0] at hl
        exact tg.level_zero_unique hl
    · intro m
      constructor
      · intro hm
        have hm0 : m = 0 := by simpa using hm
        rw [hm0]
        exact hl0
      · intro hm
        have hm0 : m = 0 := tg.level_zero_unique hm
        rw [hm0]
        simp
    · intro K hK
      simp [Nat.ne_of_gt hK]
  have hfin := foldl_processLevel tg (maxLevelVal g + 1) 0 _ hbase
  simp only [Nat.zero_add] at hfin
  obtain ⟨hpn, hpm, h3, h4, h5⟩ := hfin
  have hred : primaryLayout g = ((List.range' 0 (maxLevelVal g + 1)).foldl (processLevel g)
      ⟨[(0, ((0 : ℚ), (0 : ℚ)))], fun k => if k = 0 then some [0] else none⟩).pos := by
    unfold primaryLayout
    rw [hroot, List.range_eq_range']
  refine ⟨by rw [hred]; exact hpn, ?_⟩
  intro m
  rw [hred, hpm m]
  constructor
  · rintro ⟨l, hl, hle⟩
    exact levelOf_mem hl
  · intro hm
    obtain ⟨l, hl⟩ := levelOf_total hm
    refine ⟨l, hl, ?_⟩
    have := levelOf_le_max hl
    omega

/-! ## Values written by one placement step -/

theorem processNode_place_single {g : GraphState} {L : Nat} {st : LayoutState} {node : Nat}
    {px py : ℚ} (hup : lookupPos st.pos node = some (px, py)) {c : Nat}
    (h : successors g node = [c]) :
    lookupPos (processNode g L st node).pos c = some (px - 3, py) := by
  simp [processNode, h, hup, lookupPos_setPos_self]

theorem processNode_place_spread {g : GraphState} {L : Nat} {st : LayoutState} {node : Nat}
    {px py : ℚ} (hup : lookupPos st.pos node = some (px, py))
    (hnodup : (successors g node).Nodup) (hk : 1 < (successors g node).length) :
    ∀ ic ∈ (successors g node).enum,
      lookupPos (processNode g L st node).pos ic.2 =
        some (px - 3,
          (py - min 8 (((successors g node).length : ℚ) * 1.5) / 2) +
            min 8 (((successors g node).length : ℚ) * 1.5) /
              (((successors g node).length : ℚ) - 1) * ic.1) := by
  intro ic hic
  have hlen : 0 < (successors g node).length := by omega
  have hne : ¬(((successors g node).length == 1) = true) := by
    simp only [beq_iff_eq]
    omega
  have hfold := foldl_setPos_lookup
    (fun jc => ((px - 3 : ℚ),
      if 1 < (successors g node).length then
        (py - min 8 (((successors g node).length : ℚ) * 1.5) / 2) +
          min 8 (((successors g node).length : ℚ) * 1.5) /
            (((successors g node).length : ℚ) - 1) * jc.1
      else (py - min 8 (((successors g node).length : ℚ) * 1.5) / 2)))
    (successors g node).enum st.pos
    (by rw [List.enum_map_snd]; exact hnodup) ic hic
  simp only [processNode, if_pos hlen, hup, if_neg hne]
  rw [hfold]
  simp [hk]

/-! ## The claims -/

/-- C1: for every graph the builder produces, the layout step returns a
position map with exactly one entry for every node identity of the graph and
no entry for any other identity; and on the fallback path — when no
zero-indegree node exists, so the primary heuristic yields the empty map and
the (spec-modelled) `nx.spring_layout` replaces it wholesale — the returned
map's keys are again exactly the graph's node identities. -/
theorem layout_completeness :
    (∀ sheet : SheetData,
      (posKeys (layout (build sheet))).Nodup ∧
      ∀ m, m ∈ posKeys (layout (build sheet)) ↔ m ∈ nodeIds (build sheet)) ∧
    (∀ g : GraphState, rootNodes g = [] → posKeys (layout g) = nodeIds g) := by
  constructor
  · intro sheet
    cases sheet with
    | none =>
      constructor
      · simp [layout, primaryLayout, build, rootNodes, spring_layout, posKeys]
      · intro m
        simp [layout, primaryLayout, build, rootNodes, spring_layout, posKeys, nodeIds, idsOf]
    | some t =>
      have tg := build_treeGraph (some t)
      obtain ⟨newN, newE, hbe, out⟩ := build_some_eq t
      have hne : (build (some t)).nodes ≠ [] := by
        rw [hbe]
        have hd := out.hd
        rcases newN with _ | ⟨nd, rest⟩
        · simp at hd
        · simp
      have hp := primaryLayout_keys tg hne
      have h0mem : (0 : Nat) ∈ posKeys (primaryLayout (build (some t))) := by
        rw [hp.2 0, tg.mem_nodeIds]
        exact List.length_pos.2 hne
      have hnonempty : (primaryLayout (build (some t))).isEmpty = false := by
        rcases hpl : primaryLayout (build (some t)) with _ | ⟨e, rest⟩
        · rw [hpl] at h0mem
          simp [posKeys] at h0mem
        · simp
      have hlay : layout (build (some t)) = primaryLayout (build (some t)) := by
        simp [layout, hnonempty]
      rw [hlay]
      exact hp
  · intro g hroot
    have hlay : layout g = spring_layout g 42 (3 / 10) 100 := by
      simp [layout, primaryLayout, hroot]
    rw [hlay]
    simp [spring_layout, posKeys, nodeIds, idsOf]

/-- Witness for the completeness claim: a concrete one-node graph with a
self-loop has no zero-indegree node, and the fallback still covers its node. -/
theorem layout_completeness_witness :
    rootNodes gLoop = [] ∧ posKeys (layout gLoop) = nodeIds gLoop :=
  ⟨by decide, layout_completeness.2 gLoop (by decide)⟩

/-- C2: building and laying out twice on logically identical sheet input gives
identical identity assignments (node records), identical edge sets, and
identical coordinates.  The fallback path is the deterministic spec-modelled
`spring_layout` called with the fixed literals seed 42, k = 0.3 and 100
iterations, so the whole pipeline is a pure function of the input. -/
theorem build_layout_deterministic : ∀ s1 s2 : SheetData, s1 = s2 →
    (build s1).nodes = (build s2).nodes ∧
    (build s1).edges = (build s2).edges ∧
    layout (build s1) = layout (build s2) := by
  intro s1 s2 h
  rw [h]
  exact ⟨rfl, rfl, rfl⟩

/-- Witness for the determinism claim at a concrete sheet. -/
theorem build_layout_deterministic_witness :
    (build (some topic3)).nodes = (build (some topic3)).nodes ∧
    (build (some topic3)).edges = (build (some topic3)).edges ∧
    layout (build (some topic3)) = layout (build (some topic3)) :=
  build_layout_deterministic (some topic3) (some topic3) rfl

/-- C3: the builder assigns identities densely as 0..N−1 in traversal
(pre-order, left-to-right, dict buckets in key order) — the identity sequence
read off in node insertion order is exactly `range N` — the root receives 0,
and every strict descendant (transitive closure of the edge relation) has a
strictly larger identity than its ancestor. -/
theorem preorder_identity_law : ∀ t : Topic,
    nodeIds (build (some t)) = List.range (build (some t)).nodes.length ∧
    (build (some t)).nodes.head?.map (fun nd => nd.nid) = some 0 ∧
    ∀ p c : Nat,
      Relation.TransGen (fun a b => (a, b) ∈ (build (some t)).edges) p c → p < c := by
  intro t
  have tg := build_treeGraph (some t)
  refine ⟨tg.nodesIds, ?_, ?_⟩
  · obtain ⟨newN, newE, hbe, out⟩ := build_some_eq t
    rw [hbe]
    show newN.head?.map (fun nd => nd.nid) = some 0
    rw [out.hd]
    simp
  · intro p c h
    induction h with
    | single h1 => exact (tg.edgeBounds _ h1).1
    | tail h1 h2 ih =>
      have hb := (tg.edgeBounds _ h2).1
      omega

/-- Witness for the identity law on a concrete chain: node 2 is a strict
descendant of the root 0 and indeed has the larger identity. -/
theorem preorder_identity_law_witness :
    nodeIds (build (some topicChain)) = List.range 3 ∧ (0 : Nat) < 2 := by
  constructor
  · have h := (preorder_identity_law topicChain).1
    rw [h]
    rfl
  · have h01 : (0, 1) ∈ (build (some topicChain)).edges := by decide
    have h12 : (1, 2) ∈ (build (some topicChain)).edges := by decide
    exact (preorder_identity_law topicChain).2.2 0 2
      (Relation.TransGen.tail (Relation.TransGen.single h01) h12)

/-- C4: in every built graph, every edge goes from a node recorded at some
level l to a node recorded at level l + 1, and the root's recorded level
is 0. -/
theorem level_monotonicity : ∀ t : Topic,
    (∀ e ∈ (build (some t)).edges, ∃ l,
      levelOf (build (some t)) e.1 = some l ∧
      levelOf (build (some t)) e.2 = some (l + 1)) ∧
    levelOf (build (some t)) 0 = some 0 := by
  intro t
  have tg := build_treeGraph (some t)
  have hne : (build (some t)).nodes ≠ [] := by
    obtain ⟨newN, newE, hbe, out⟩ := build_some_eq t
    rw [hbe]
    have hd := out.hd
    rcases newN with _ | _
    · simp at hd
    · simp
  exact ⟨tg.edgeLevel, tg.levelOf_root hne⟩

/-- Witness for the level law at a concrete edge. -/
theorem level_monotonicity_witness :
    (0, 1) ∈ (build (some topicChain)).edges ∧
    ∃ l, levelOf (build (some topicChain)) 0 = some l ∧
      levelOf (build (some topicChain)) 1 = some (l + 1) :=
  ⟨by decide, (level_monotonicity topicChain).1 (0, 1) (by decide)⟩

/-- C5: when the primary heuristic processes a placed parent at (px, py), a
single child is placed at exactly (px − 3, py); k > 1 children are all placed
at x = px − 3, the i-th (0-indexed) at
y = (py − spacing/2) + (spacing/(k−1))·i with spacing = min 8 (k·1.5). -/
theorem child_placement_formula {g : GraphState} {L : Nat} {st : LayoutState}
    {node : Nat} {px py : ℚ}
    (hup : lookupPos st.pos node = some (px, py))
    (hnodup : (successors g node).Nodup) :
    (∀ c, successors g node = [c] →
      lookupPos (processNode g L st node).pos c = some (px - 3, py)) ∧
    (1 < (successors g node).length →
      ∀ ic ∈ (successors g node).enum,
        lookupPos (processNode g L st node).pos ic.2 =
          some (px - 3,
            (py - min 8 (((successors g node).length : ℚ) * 1.5) / 2) +
              min 8 (((successors g node).length : ℚ) * 1.5) /
                (((successors g node).length : ℚ) - 1) * ic.1)) :=
  ⟨fun _c h => processNode_place_single hup h,
   fun hk ic hic => processNode_place_spread hup hnodup hk ic hic⟩

/-- Witness for the placement formula: the root of Scenario D sits at (0, 0)
with three children, which land at y = −2.25, 0, 2.25. -/
theorem child_placement_formula_witness :
    lookupPos (processNode (build (some topic3)) 0 st3 0).pos 1 =
      some (-3, -9 / 4) ∧
    lookupPos (processNode (build (some topic3)) 0 st3 0).pos 2 =
      some (-3, 0) ∧
    lookupPos (processNode (build (some topic3)) 0 st3 0).pos 3 =
      some (-3, 9 / 4) := by
  have hsucc : successors (build (some topic3)) 0 = [1, 2, 3] := by decide
  have hup : lookupPos st3.pos 0 = some (0, 0) := rfl
  have h := (@child_placement_formula (build (some topic3)) 0 st3 0 0 0 hup
    (by rw [hsucc]; decide)).2 (by rw [hsucc]; decide)
  refine ⟨?_, ?_, ?_⟩
  · exact (h (0, 1) (by rw [hsucc]; decide)).trans (by norm_num [hsucc, min_def])
  · exact (h (1, 2) (by rw [hsucc]; decide)).trans (by norm_num [hsucc, min_def])
  · exact (h (2, 3) (by rw [hsucc]; decide)).trans (by norm_num [hsucc, min_def])

/-- C6: when the primary heuristic processes a placed parent with k > 1
children, the children receive pairwise-distinct y-coordinates. -/
theorem children_distinct_y {g : GraphState} {L : Nat} {st : LayoutState}
    {node : Nat} {px py : ℚ}
    (hup : lookupPos st.pos node = some (px, py))
    (hnodup : (successors g node).Nodup)
    (hk : 1 < (successors g node).length) :
    ∀ ic ∈ (successors g node).enum, ∀ jc ∈ (successors g node).enum, ic.1 ≠ jc.1 →
      ∃ yi yj, lookupPos (processNode g L st node).pos ic.2 = some (px - 3, yi) ∧
        lookupPos (processNode g L st node).pos jc.2 = some (px - 3, yj) ∧ yi ≠ yj := by
  intro ic hic jc hjc hij
  refine ⟨_, _, processNode_place_spread hup hnodup hk ic hic,
    processNode_place_spread hup hnodup hk jc hjc, ?_⟩
  intro heq
  apply hij
  have hlen2 : (2 : ℚ) ≤ ((successors g node).length : ℚ) := by exact_mod_cast hk
  have hs : (0 : ℚ) < min 8 (((successors g node).length : ℚ) * 1.5) := by
    apply lt_min
    · norm_num
    · nlinarith
  have hdpos : (0 : ℚ) < min 8 (((successors g node).length : ℚ) * 1.5) /
      (((successors g node).length : ℚ) - 1) := by
    apply div_pos hs
    linarith
  have h2 := add_left_cancel heq
  have h3 := mul_left_cancel₀ (ne_of_gt hdpos) h2
  exact_mod_cast h3

/-- Witness for the distinct-y claim: children 1 and 2 of the Scenario D root
get different y-coordinates. -/
theorem children_distinct_y_witness :
    ∃ y1 y2, lookupPos (processNode (build (some topic3)) 0 st3 0).pos 1 =
        some ((0 : ℚ) - 3, y1) ∧
      lookupPos (processNode (build (some topic3)) 0 st3 0).pos 2 =
        some ((0 : ℚ) - 3, y2) ∧ y1 ≠ y2 := by
  have hsucc : successors (build (some topic3)) 0 = [1, 2, 3] := by decide
  have hup : lookupPos st3.pos 0 = some (0, 0) := rfl
  exact children_distinct_y hup (by rw [hsucc]; decide) (by rw [hsucc]; decide)
    (0, 1) (by rw [hsucc]; decide) (1, 2) (by rw [hsucc]; decide) (by decide)

/-- C7: the style formulas are total on strings (the empty string included):
the font size always lies in [8, 12] and the node size is at least 2500. -/
theorem style_totality : ∀ s : String,
    8 ≤ font_size s ∧ font_size s ≤ 12 ∧ 2500 ≤ node_size s := by
  intro s
  refine ⟨?_, ?_, ?_⟩
  · unfold font_size
    apply le_min
    · norm_num
    · exact le_max_left 8 _
  · unfold font_size
    exact min_le_left _ _
  · unfold node_size
    omega

/-- C8: a `topics` value that is neither a list nor a dict is treated exactly
like an absent `topics` key: the topic itself is still added (with the edge
from its parent) but no child node and no further edge, and the traversal is
a total function — no error is raised. -/
theorem malformed_children_ignored :
    ∀ (ttl : TitleVal) (parent : Option Nat) (nodeId level : Nat) (st : GraphState),
      traverseGraph (Topic.mk ttl .other) parent nodeId level st =
        traverseGraph (Topic.mk ttl .absent) parent nodeId level st ∧
      (traverseGraph (Topic.mk ttl .other) parent nodeId level st).2.nodes =
        st.nodes ++ [⟨nodeId, pyGetTitle ttl, level⟩] ∧
      (traverseGraph (Topic.mk ttl .other) parent nodeId level st).2.edges =
        st.edges ++ (match parent with | some p => [(p, nodeId)] | none => []) := by
  intro ttl parent nodeId level st
  cases parent <;> simp [traverseGraph]

/-- C9: `generate_sheet_image` returns a buffer for every input and every
behaviour of the rendering adapter: a raised exception is swallowed (the
buffer stays as created, i.e. empty), the `finally` clause closes all figures
on both paths, and on success the buffer holds the rendered bytes. -/
theorem generate_sheet_image_total : ∀ (sheet : SheetData)
    (render : GraphState → List (Nat × Point) → RenderOutcome),
    (generate_sheet_image sheet render).figuresClosed = true ∧
    (∀ msg, render (build sheet) (layout (build sheet)) = .fail msg →
      (generate_sheet_image sheet render).buffer = Buffer.empty) ∧
    (∀ png, render (build sheet) (layout (build sheet)) = .ok png →
      (generate_sheet_image sheet render).buffer = ⟨png⟩) := by
  intro sheet render
  refine ⟨rfl, ?_, ?_⟩
  · intro msg h
    simp [generate_sheet_image, h]
  · intro png h
    simp [generate_sheet_image, h]

/-- Witness for exception suppression: a failing adapter still yields a
closed-figures result with the empty buffer. -/
theorem generate_sheet_image_total_witness :
    (generate_sheet_image none (fun _ _ => .fail "boom")).figuresClosed = true ∧
    (generate_sheet_image none (fun _ _ => .fail "boom")).buffer = Buffer.empty :=
  ⟨(generate_sheet_image_total none (fun _ _ => .fail "boom")).1,
   (generate_sheet_image_total none (fun _ _ => .fail "boom")).2.1 "boom" rfl⟩

/-- C10: `topic.get('title', 'Untitled')` applies the default only when the
`title` key is absent — a present `None` value is recorded as label `None`,
which differs from "Untitled". -/
theorem none_title_not_defaulted :
    ∀ (ch : ChildrenVal) (parent : Option Nat) (nodeId level : Nat),
      (traverseGraph (Topic.mk .pynone ch) parent nodeId level ⟨[], []⟩).2.nodes.head? =
        some ⟨nodeId, none, level⟩ ∧
      (traverseGraph (Topic.mk .absent ch) parent nodeId level ⟨[], []⟩).2.nodes.head? =
        some ⟨nodeId, some "Untitled", level⟩ ∧
      (none : Label) ≠ some "Untitled" := by
  intro ch parent nodeId level
  refine ⟨?_, ?_, by simp⟩
  · obtain ⟨newN, newE, hn, _, _, out⟩ :=
      topicSpec (Topic.mk .pynone ch) parent nodeId level ⟨[], []⟩
    rw [hn]
    show newN.head? = some ⟨nodeId, none, level⟩
    rw [out.hd]
    rfl
  · obtain ⟨newN, newE, hn, _, _, out⟩ :=
      topicSpec (Topic.mk .absent ch) parent nodeId level ⟨[], []⟩
    rw [hn]
    show newN.head? = some ⟨nodeId, some "Untitled", level⟩
    rw [out.hd]
    rfl

end XmindApp
